import Mathlib

/-!
Verification of the HubListener incremental commit-analysis pipeline.

This file is a shallow embedding of the JavaScript source of the pipeline:

* `src/clone.js` — `Clone.foreachCommit`, `Clone.analyseCommits`,
  `Clone.commitsAfter`, `Clone.staticAnalysis`;
* `src/parallel.js` — `parallelAnalysis` (round-robin partitioning), and the
  earlier contiguous-chunk revision of the same function;
* `src/data.js` — the new-commit selection and the row-assembly merge inside
  `Data.analyse`;
* `src/analyse.js` — `analyse.javascript` and `analyse.generic`;
* `src/database.js` — `Database.insertValues` over the `MetricValues` table of
  `schema.sql`;
* `utils.js` — `utils.alignIssuesToCommits` and `utils.rows2points`.

Conventions.  Timestamps are epoch milliseconds, modelled as `Int`.  Numeric
metric values are opaque payload for every property proved here, so they are
modelled as `Int`.  JavaScript objects are modelled as association lists in
insertion order: assignment updates the value in place when the key is present
and appends otherwise, and property reads return the value at the key, which
is exactly the behaviour of objects whose keys are unique (as every object
built by the embedded code is).  Promise results of fallible operations are
modelled with `Except`.
-/

namespace HubListener

/-- A commit: content-addressed hash id and timestamp (epoch milliseconds). -/
structure Commit where
  commit_id : String
  commit_date : Int
  deriving DecidableEq, Repr

/-! ## JavaScript object model -/

/-- JavaScript property assignment `o[k] = v` on an object with unique keys:
update the value in place when the key is present, append otherwise. -/
def setObj {V : Type} : List (String × V) → String → V → List (String × V)
  | [], k, v => [(k, v)]
  | p :: ps, k, v => if p.1 = k then (k, v) :: ps else p :: setObj ps k v

/-- JavaScript property read `o[k]`: the value stored at `k`, if present. -/
def getObj {V : Type} : List (String × V) → String → Option V
  | [], _ => none
  | p :: ps, k => if p.1 = k then some p.2 else getObj ps k

theorem getObj_setObj_self {V : Type} (o : List (String × V)) (k : String) (v : V) :
    getObj (setObj o k v) k = some v := by
  induction o with
  | nil => simp [setObj, getObj]
  | cons p ps ih =>
    by_cases h : p.1 = k
    · simp [setObj, h, getObj]
    · simp [setObj, h, getObj, ih]

theorem getObj_setObj_ne {V : Type} (o : List (String × V)) (k k' : String) (v : V)
    (h : k' ≠ k) : getObj (setObj o k v) k' = getObj o k' := by
  induction o with
  | nil =>
    simp [setObj, getObj]
    exact Ne.symm h
  | cons p ps ih =>
    by_cases hp : p.1 = k
    · simp [setObj, getObj, hp, Ne.symm h]
    · simp [setObj, hp, getObj, ih]

theorem mem_keys_setObj {V : Type} (o : List (String × V)) (k a : String) (v : V) :
    a ∈ (setObj o k v).map Prod.fst ↔ a = k ∨ a ∈ o.map Prod.fst := by
  induction o with
  | nil => simp [setObj]
  | cons p ps ih =>
    by_cases hp : p.1 = k
    · subst hp
      simp [setObj]
    · simp [setObj, hp, ih]
      tauto

theorem mem_of_getObj {V : Type} (o : List (String × V)) (k : String) (v : V)
    (h : getObj o k = some v) : (k, v) ∈ o := by
  induction o with
  | nil => simp [getObj] at h
  | cons p ps ih =>
    obtain ⟨a, b⟩ := p
    by_cases hp : a = k
    · simp [getObj, hp] at h
      subst hp
      subst h
      exact List.mem_cons_self _ _
    · simp [getObj, hp] at h
      exact List.mem_cons_of_mem _ (ih h)

/-! ## Commit walker: `Clone.foreachCommit` and `Clone.analyseCommits` -/

/-- Per-commit analysis record (the `AnalysisResult` shape produced by the
walker): commit id, commit date, and metrics grouped by file extension, each
extension holding a metric-name-to-value object. -/
structure AnalysisResult where
  commit_id : String
  commit_date : Int
  valuesByExt : List (String × List (String × Int))
  deriving DecidableEq, Repr

/-- The loop body of `Clone.foreachCommit`, with the 1-based index threaded
through.  Each iteration awaits the hard reset to the commit — a rejection
there is not caught and so rejects the whole walk — and then applies the
action, falling back to the catcher when the action rejects. -/
def foreachCommitAux {E R : Type} (reset : Commit → Except E Unit)
    (action : Commit → Nat → Except E R) (catcher : Commit → E → Nat → R) :
    List Commit → Nat → Except E (List R)
  | [], _ => .ok []
  | c :: rest, i =>
    match reset c with
    | .error e => .error e
    | .ok _ =>
      let r := match action c i with
        | .ok r => r
        | .error e => catcher c e i
      match foreachCommitAux reset action catcher rest (i + 1) with
      | .error e => .error e
      | .ok rs => .ok (r :: rs)

/-- `Clone.foreachCommit commits action catcher`: hard-reset to each commit in
turn, apply the action, catch action failures with the catcher, and collect
the results in order. -/
def foreachCommit {E R : Type} (commits : List Commit) (reset : Commit → Except E Unit)
    (action : Commit → Nat → Except E R) (catcher : Commit → E → Nat → R) :
    Except E (List R) :=
  foreachCommitAux reset action catcher commits 1

/-- `Clone.analyseCommits`: walk the commits with the static analysis of the
checked-out tree as the action; the catcher emits a record with the commit id,
the commit date, and an empty metrics object.  `staticAnalysisOf c` stands for
the result of `this.staticAnalysis()` while `c` is checked out. -/
def analyseCommits (commits : List Commit) (reset : Commit → Except String Unit)
    (staticAnalysisOf : Commit → Except String (List (String × List (String × Int)))) :
    Except String (List AnalysisResult) :=
  foreachCommit commits reset
    (fun c _i => (staticAnalysisOf c).map (fun v =>
      { commit_id := c.commit_id, commit_date := c.commit_date, valuesByExt := v }))
    (fun c _e _i =>
      { commit_id := c.commit_id, commit_date := c.commit_date, valuesByExt := [] })

/-- The per-commit outcome of the walk: the analysed record when the static
analysis succeeds, and the catcher record (empty metrics object) when it
fails. -/
def walkResult (staticAnalysisOf : Commit → Except String (List (String × List (String × Int))))
    (c : Commit) : AnalysisResult :=
  match staticAnalysisOf c with
  | .ok v => { commit_id := c.commit_id, commit_date := c.commit_date, valuesByExt := v }
  | .error _ => { commit_id := c.commit_id, commit_date := c.commit_date, valuesByExt := [] }

theorem analyseCommitsAux_ok (reset : Commit → Except String Unit)
    (staticAnalysisOf : Commit → Except String (List (String × List (String × Int))))
    (commits : List Commit) (h : ∀ c ∈ commits, reset c = .ok ()) (i : Nat) :
    foreachCommitAux reset
      (fun c _i => (staticAnalysisOf c).map (fun v =>
        { commit_id := c.commit_id, commit_date := c.commit_date, valuesByExt := v }))
      (fun c _e _i =>
        ({ commit_id := c.commit_id, commit_date := c.commit_date,
           valuesByExt := [] } : AnalysisResult)) commits i
      = .ok (commits.map (walkResult staticAnalysisOf)) := by
  induction commits generalizing i with
  | nil => rfl
  | cons c rest ih =>
    have hr : reset c = .ok () := h c (List.mem_cons_self c rest)
    have hrest : ∀ x ∈ rest, reset x = .ok () :=
      fun x hx => h x (List.mem_cons_of_mem c hx)
    simp only [foreachCommitAux, hr, ih hrest (i + 1), List.map_cons]
    cases hsa : staticAnalysisOf c <;>
      simp [walkResult, hsa, Except.map]

/-- C2: for every input sequence of commits whose checkouts succeed, the walker
returns exactly one record per commit, in input order, regardless of how many
static analyses failed; a failed analysis still yields a record with the
commit id, the commit date, and an empty metrics object. -/
theorem analyseCommits_complete (commits : List Commit)
    (reset : Commit → Except String Unit)
    (staticAnalysisOf : Commit → Except String (List (String × List (String × Int))))
    (h : ∀ c ∈ commits, reset c = .ok ()) :
    analyseCommits commits reset staticAnalysisOf
      = .ok (commits.map (walkResult staticAnalysisOf)) :=
  analyseCommitsAux_ok reset staticAnalysisOf commits h 1

/-- Witness for `analyseCommits_complete`: two commits, the first of which
fails its static analysis, still produce two ordered records, the failed one
carrying an empty metrics object. -/
theorem analyseCommits_complete_witness :
    (∀ c ∈ [Commit.mk "a" 1, Commit.mk "b" 2],
        (fun _ => (Except.ok () : Except String Unit)) c = .ok ()) ∧
    analyseCommits [Commit.mk "a" 1, Commit.mk "b" 2]
        (fun _ => Except.ok ())
        (fun c => if c.commit_date = 1 then Except.error "parse failure"
          else Except.ok [(".js", [("numberOfLines", 7)])])
      = .ok ([Commit.mk "a" 1, Commit.mk "b" 2].map
          (walkResult (fun c => if c.commit_date = 1 then Except.error "parse failure"
            else Except.ok [(".js", [("numberOfLines", 7)])]))) :=
  ⟨fun _ _ => rfl,
   analyseCommits_complete _ _ _ (fun _ _ => rfl)⟩

/-- C3 counterexample: with two commits whose hard reset fails on the first,
the walk rejects as a whole — the result is the reset error itself, not a list
of per-commit records carrying an error marker, and the second commit is never
visited.  The `.catch` in `foreachCommit` wraps only the action, not the
`Git.Reset.reset` call. -/
theorem foreachCommit_checkout_failure_aborts :
    analyseCommits [Commit.mk "a" 1, Commit.mk "b" 2]
        (fun c => if c.commit_date = 1 then Except.error "checkout failed"
          else Except.ok ())
        (fun _ => Except.ok [(".js", [("numberOfLines", 7)])])
      = Except.error "checkout failed" ∧
    (analyseCommits [Commit.mk "a" 1, Commit.mk "b" 2]
        (fun c => if c.commit_date = 1 then Except.error "checkout failed"
          else Except.ok ())
        (fun _ => Except.ok [(".js", [("numberOfLines", 7)])])).isOk = false :=
  ⟨rfl, rfl⟩

/-- C3 (amended): only failures of the per-commit analysis action are caught
and attributed to their commit; a checkout (hard reset) failure is not caught —
it propagates out of the walk, the whole walk fails with that error, and no
per-commit result is emitted for that commit or any later one. -/
theorem foreachCommit_checkout_failure_propagates (pre post : List Commit) (c : Commit)
    (reset : Commit → Except String Unit)
    (staticAnalysisOf : Commit → Except String (List (String × List (String × Int))))
    (e : String)
    (hpre : ∀ x ∈ pre, reset x = .ok ()) (hc : reset c = .error e) :
    analyseCommits (pre ++ c :: post) reset staticAnalysisOf = Except.error e := by
  unfold analyseCommits foreachCommit
  generalize 1 = i
  induction pre generalizing i with
  | nil => simp only [List.nil_append, foreachCommitAux, hc]
  | cons p ps ih =>
    have hp : reset p = .ok () := hpre p (List.mem_cons_self p ps)
    have hps : ∀ x ∈ ps, reset x = .ok () :=
      fun x hx => hpre x (List.mem_cons_of_mem p hx)
    simp only [List.cons_append, foreachCommitAux, hp, List.append_eq, ih hps (i + 1)]

/-- Witness for `foreachCommit_checkout_failure_propagates`: the walk over
three commits whose middle checkout fails rejects with that error. -/
theorem foreachCommit_checkout_failure_propagates_witness :
    (∀ x ∈ [Commit.mk "a" 1],
        (fun c => if c.commit_date = 2 then Except.error "boom"
          else (Except.ok () : Except String Unit)) x = .ok ()) ∧
    ((fun c => if c.commit_date = 2 then Except.error "boom"
        else (Except.ok () : Except String Unit)) (Commit.mk "b" 2) = .error "boom") ∧
    analyseCommits ([Commit.mk "a" 1] ++ Commit.mk "b" 2 :: [Commit.mk "c" 3])
        (fun c => if c.commit_date = 2 then Except.error "boom" else Except.ok ())
        (fun _ => Except.ok []) = Except.error "boom" :=
  ⟨by
      intro x hx
      simp only [List.mem_singleton] at hx
      subst hx
      rfl,
   rfl,
   foreachCommit_checkout_failure_propagates [Commit.mk "a" 1] [Commit.mk "c" 3]
     (Commit.mk "b" 2) _ _ "boom"
     (by
       intro x hx
       simp only [List.mem_singleton] at hx
       subst hx
       rfl)
     rfl⟩

/-! ## Parallel dispatcher: `parallelAnalysis` of `parallel.js` -/

/-- The inner loop of the round-robin split of `parallelAnalysis`: the
elements of the list at positions `start`, `start + step`, `start + 2*step`,
and so on. -/
def stride {α : Type} (step : Nat) : List α → Nat → List α
  | [], _ => []
  | a :: as, 0 => a :: stride step as (step - 1)
  | _ :: as, s + 1 => stride step as s

/-- The round-robin split of `parallelAnalysis`: worker `n` of `ncpus` is
assigned the commit ids at positions congruent to `n` modulo `ncpus`
("alternating equal sized chunks"). -/
def roundRobinChunks {α : Type} (ids : List α) (ncpus : Nat) : List (List α) :=
  (List.range ncpus).map (fun n => stride ncpus ids n)

/-- `parallelAnalysis` (current revision, round-robin): each worker walks its
chunk through a per-clone `analyseCommits` — modelled by mapping the
deterministic per-commit analysis `analyseOne` over the chunk — and the
dispatcher merges by concatenating the per-worker result lists in worker
order, with no re-sorting. -/
def parallelAnalysis {β : Type} (ids : List String) (ncpus : Nat)
    (analyseOne : String → β) : List β :=
  ((roundRobinChunks ids ncpus).map (fun chunk => chunk.map analyseOne)).flatten

/-- The contiguous split of the earlier revision of `parallelAnalysis`:
slices of `size` consecutive ids, in order.  The JavaScript loop runs at most
`ids.length` iterations when `size` is positive, so the recursion is bounded
by a fuel argument equal to the length of the list. -/
def contiguousChunksAux {α : Type} : Nat → List α → Nat → List (List α)
  | _, [], _ => []
  | 0, _ :: _, _ => []
  | fuel + 1, a :: as, size => (a :: as).take size :: contiguousChunksAux fuel (as.drop (size - 1)) size

/-- Slices of `size` consecutive elements, in order, as produced by the
`commit_ids.slice(i, i + size)` loop of the earlier dispatcher. -/
def contiguousChunks {α : Type} (l : List α) (size : Nat) : List (List α) :=
  contiguousChunksAux l.length l size

/-- `parallelAnalysis` (earlier revision, contiguous): chunk size is
`Math.ceil(ids.length / ncpus)`, and the merge again concatenates the
per-worker results in worker order. -/
def parallelAnalysisChunked {β : Type} (ids : List String) (ncpus : Nat)
    (analyseOne : String → β) : List β :=
  ((contiguousChunks ids ((ids.length + ncpus - 1) / ncpus)).map
    (fun chunk => chunk.map analyseOne)).flatten

theorem flatten_map_nil {α γ : Type} (l : List γ) :
    (l.map (fun _ => ([] : List α))).flatten = [] := by
  induction l with
  | nil => rfl
  | cons x xs ih => simp [ih]

theorem stride_nil {α : Type} (step n : Nat) : stride (α := α) step [] n = [] := by
  cases n <;> rfl

theorem flatten_roundRobinChunks_perm {α : Type} (ids : List α) (k : Nat) (hk : 0 < k) :
    (roundRobinChunks ids k).flatten.Perm ids := by
  induction ids with
  | nil =>
    simp only [roundRobinChunks, stride_nil]
    rw [flatten_map_nil]
  | cons a as ih =>
    obtain ⟨m, rfl⟩ : ∃ m, k = m + 1 := ⟨k - 1, by omega⟩
    have hhead :
        roundRobinChunks (a :: as) (m + 1)
          = (a :: stride (m + 1) as m) :: (List.range m).map (fun n => stride (m + 1) as n) := by
      simp only [roundRobinChunks, List.range_succ_eq_map, List.map_cons, List.map_map]
      rfl
    have htail :
        (roundRobinChunks as (m + 1)).flatten
          = ((List.range m).map (fun n => stride (m + 1) as n)).flatten ++ stride (m + 1) as m := by
      simp [roundRobinChunks, List.range_succ]
    rw [hhead]
    simp only [List.flatten_cons, List.cons_append]
    refine List.Perm.cons a ?_
    have h1 : (stride (m + 1) as m ++ ((List.range m).map (fun n => stride (m + 1) as n)).flatten).Perm
        (((List.range m).map (fun n => stride (m + 1) as n)).flatten ++ stride (m + 1) as m) :=
      List.perm_append_comm
    have h2 : (((List.range m).map (fun n => stride (m + 1) as n)).flatten ++ stride (m + 1) as m).Perm as := by
      rw [← htail]
      exact ih
    exact h1.trans h2

theorem flatten_contiguousChunksAux {α : Type} (size : Nat) (hs : 0 < size) :
    ∀ (fuel : Nat) (l : List α), l.length ≤ fuel →
      (contiguousChunksAux fuel l size).flatten = l := by
  intro fuel
  induction fuel with
  | zero =>
    intro l hl
    rw [List.length_eq_zero.mp (Nat.le_zero.mp hl)]
    rfl
  | succ fuel ih =>
    intro l hl
    match l with
    | [] => rfl
    | a :: as =>
      obtain ⟨s, rfl⟩ : ∃ s, size = s + 1 := ⟨size - 1, by omega⟩
      have hfuel : (as.drop s).length ≤ fuel := by
        simp only [List.length_cons] at hl
        simp only [List.length_drop]
        omega
      simp only [contiguousChunksAux, List.flatten_cons, ih (as.drop s) hfuel,
        Nat.add_sub_cancel, List.take_succ_cons, List.cons_append, List.cons.injEq, true_and]
      exact List.take_append_drop s as

theorem flatten_contiguousChunks {α : Type} (size : Nat) (hs : 0 < size) (l : List α) :
    (contiguousChunks l size).flatten = l :=
  flatten_contiguousChunksAux size hs l.length l (Nat.le_refl _)

/-- C1 counterexample: with round-robin partitioning over two workers and a
three-commit chronological sequence, the merged output of `parallelAnalysis`
is not re-sorted into the original commit order: the merge interleaves the
partitions out of order, while the single walker preserves it. -/
theorem parallelAnalysis_round_robin_breaks_order :
    parallelAnalysis ["a", "b", "c"] 2 (fun s => s) = ["a", "c", "b"] ∧
    ["a", "b", "c"].map (fun s => s) = ["a", "b", "c"] ∧
    (["a", "c", "b"] : List String) ≠ ["a", "b", "c"] :=
  ⟨rfl, rfl, by decide⟩

/-- C1 (amended): the merged output of the round-robin `parallelAnalysis` is
the concatenation of the per-partition results in partition order — a
permutation of the single-CommitWalker output containing exactly the same
per-commit results, but not re-sorted into original commit order.  The
earlier contiguous-chunk revision of the dispatcher does reconstruct the
single-walker sequence exactly, because concatenating contiguous slices in
partition order restores the original order. -/
theorem parallelAnalysis_perm_of_sequential {β : Type} (ids : List String) (ncpus : Nat)
    (analyseOne : String → β) (hk : 0 < ncpus) :
    (parallelAnalysis ids ncpus analyseOne).Perm (ids.map analyseOne) ∧
    parallelAnalysisChunked ids ncpus analyseOne = ids.map analyseOne := by
  constructor
  · have h := (flatten_roundRobinChunks_perm ids ncpus hk).map analyseOne
    have e1 : parallelAnalysis ids ncpus analyseOne
        = ((roundRobinChunks ids ncpus).flatten).map analyseOne := by
      simp [parallelAnalysis, List.map_flatten]
    rw [e1]
    exact h
  · cases ids with
    | nil => rfl
    | cons a as =>
      have hs : 0 < ((a :: as).length + ncpus - 1) / ncpus := by
        refine Nat.div_pos ?_ hk
        simp only [List.length_cons]
        omega
      unfold parallelAnalysisChunked
      rw [← List.map_flatten, flatten_contiguousChunks _ hs]

/-- Witness for `parallelAnalysis_perm_of_sequential` at four ids and two
workers. -/
theorem parallelAnalysis_perm_of_sequential_witness :
    0 < 2 ∧
    ((parallelAnalysis ["a", "b", "c", "d"] 2 (fun s => s ++ s)).Perm
        (["a", "b", "c", "d"].map (fun s => s ++ s)) ∧
      parallelAnalysisChunked ["a", "b", "c", "d"] 2 (fun s => s ++ s)
        = ["a", "b", "c", "d"].map (fun s => s ++ s)) :=
  ⟨by decide, parallelAnalysis_perm_of_sequential _ 2 _ (by decide)⟩

/-! ## Incremental selection: `Data.analyse` and `Clone.commitsAfter` -/

/-- The last commit recorded in the database for a repository. -/
structure LastCommit where
  commit_id : String
  commit_date : Int
  deriving DecidableEq, Repr

/-- The new-commit selection inside `Data.analyse`: when a last commit is
recorded, keep the commits whose date is strictly greater; otherwise keep all;
then reverse the (newest-first) history into chronological order.  The
reversal is applied in both branches. -/
def newCommits (allCommits : List Commit) (lastCommit : Option LastCommit) : List Commit :=
  (match lastCommit with
   | some lc => allCommits.filter (fun (c : Commit) => decide (lc.commit_date < c.commit_date))
   | none => allCommits).reverse

/-- `Clone.commitsAfter`: with no date the full history is returned as is;
with a date the strictly newer commits are kept and reversed. -/
def commitsAfter (allCommits : List Commit) (date : Option Int) : List Commit :=
  match date with
  | none => allCommits
  | some d => (allCommits.filter (fun c => decide (d < c.commit_date))).reverse

/-- C4 counterexample: `Clone.commitsAfter` with no date returns the
newest-first input order unchanged — it is not reordered to oldest-first, so
the selection is not chronological in the no-last-known-commit case of that
function. -/
theorem commitsAfter_none_keeps_input_order :
    commitsAfter [Commit.mk "b" 2, Commit.mk "a" 1] none
      = [Commit.mk "b" 2, Commit.mk "a" 1] ∧
    ([Commit.mk "b" 2, Commit.mk "a" 1] : List Commit)
      ≠ [Commit.mk "a" 1, Commit.mk "b" 2] :=
  ⟨rfl, by decide⟩

/-- C4 (amended): in `Data.analyse` the selection behaves as claimed — with no
last known commit every commit is selected, otherwise exactly the strictly
newer ones, and in either case the newest-first input is reversed into
oldest-first chronological order.  `Clone.commitsAfter` reverses only in the
filtered branch: with no date it returns the history in its input
(newest-first) order. -/
theorem incremental_selection_spec (all : List Commit) (lc : LastCommit)
    (hsorted : all.Pairwise (fun a b => b.commit_date ≤ a.commit_date)) :
    (∀ c : Commit, c ∈ newCommits all (some lc) ↔ c ∈ all ∧ lc.commit_date < c.commit_date) ∧
    newCommits all none = all.reverse ∧
    (newCommits all (some lc)).Pairwise (fun a b => a.commit_date ≤ b.commit_date) ∧
    (newCommits all none).Pairwise (fun a b => a.commit_date ≤ b.commit_date) ∧
    commitsAfter all none = all := by
  refine ⟨?_, rfl, ?_, ?_, rfl⟩
  · intro c
    simp [newCommits, List.mem_filter]
  · have hfil : (all.filter (fun c => decide (lc.commit_date < c.commit_date))).Pairwise
        (fun a b => b.commit_date ≤ a.commit_date) :=
      hsorted.sublist (List.filter_sublist all)
    simpa [newCommits, List.pairwise_reverse] using hfil
  · simpa [newCommits, List.pairwise_reverse] using hsorted

/-- Witness for `incremental_selection_spec` at a two-commit newest-first
history and a last commit dated between the two. -/
theorem incremental_selection_spec_witness :
    ([Commit.mk "b" 5, Commit.mk "a" 1] : List Commit).Pairwise
        (fun a b => b.commit_date ≤ a.commit_date) ∧
    ((∀ c : Commit, c ∈ newCommits [Commit.mk "b" 5, Commit.mk "a" 1] (some (LastCommit.mk "a" 1)) ↔
          c ∈ [Commit.mk "b" 5, Commit.mk "a" 1] ∧ (1 : Int) < c.commit_date) ∧
      newCommits [Commit.mk "b" 5, Commit.mk "a" 1] none
        = [Commit.mk "b" 5, Commit.mk "a" 1].reverse ∧
      (newCommits [Commit.mk "b" 5, Commit.mk "a" 1] (some (LastCommit.mk "a" 1))).Pairwise
        (fun a b => a.commit_date ≤ b.commit_date) ∧
      (newCommits [Commit.mk "b" 5, Commit.mk "a" 1] none).Pairwise
        (fun a b => a.commit_date ≤ b.commit_date) ∧
      commitsAfter [Commit.mk "b" 5, Commit.mk "a" 1] none
        = [Commit.mk "b" 5, Commit.mk "a" 1]) :=
  ⟨by decide,
   incremental_selection_spec [Commit.mk "b" 5, Commit.mk "a" 1]
     (LastCommit.mk "a" 1) (by decide)⟩

/-! ## Meta alignment: `utils.alignIssuesToCommits` -/

/-- An issue or pull-request event: creation timestamp and state tag. -/
structure Issue where
  createdAt : Int
  state : String
  deriving DecidableEq, Repr

/-- The running tally of issues by state. -/
structure Tally where
  totalIssues : Nat
  openIssues : Nat
  closedIssues : Nat
  deriving DecidableEq, Repr

/-- One consumed issue: increment `totalIssues`, and `openIssues` when the
state is OPEN, `closedIssues` otherwise. -/
def bump (t : Tally) (st : String) : Tally :=
  { totalIssues := t.totalIssues + 1
    openIssues := if st = "OPEN" then t.openIssues + 1 else t.openIssues
    closedIssues := if st = "OPEN" then t.closedIssues else t.closedIssues + 1 }

/-- The inner loop of `alignIssuesToCommits`: step the cursor over every issue
whose creation timestamp is strictly below the commit date
(`commit_date > issues[offset].createdAt`), accumulating the tally. -/
def stepIssues (d : Int) : List Issue → Tally → List Issue × Tally
  | [], t => ([], t)
  | i :: is, t =>
    if i.createdAt < d then stepIssues d is (bump t i.state) else (i :: is, t)

/-- The outer loop of `alignIssuesToCommits`: for each commit in order,
advance the cursor, then store the running tally under the commit id. -/
def alignGo : List Issue → List Commit → Tally → List (String × Tally) → List (String × Tally)
  | _, [], _, results => results
  | is, c :: cs, t, results =>
    alignGo (stepIssues c.commit_date is t).1 cs (stepIssues c.commit_date is t).2
      (setObj results c.commit_id (stepIssues c.commit_date is t).2)

/-- `utils.alignIssuesToCommits issues commits`: a single forward sweep with a
monotonically advancing cursor into the issues list, producing an object from
commit id to the tally as of that commit. -/
def alignIssuesToCommits (issues : List Issue) (commits : List Commit) :
    List (String × Tally) :=
  alignGo issues commits (Tally.mk 0 0 0) []

/-- Bool test for the OPEN state. -/
def isOpen (i : Issue) : Bool := decide (i.state = "OPEN")

/-- The tally counting every issue of a list. -/
def tallyOfList (l : List Issue) : Tally :=
  { totalIssues := l.length
    openIssues := l.countP isOpen
    closedIssues := l.countP (fun i => !(isOpen i)) }

/-- The tally of the issues created strictly before instant `d`. -/
def tallyAt (issues : List Issue) (d : Int) : Tally :=
  tallyOfList (issues.filter (fun i => decide (i.createdAt < d)))

theorem stepIssues_eq (d : Int) (is : List Issue) (t : Tally) :
    stepIssues d is t =
      (is.dropWhile (fun i => decide (i.createdAt < d)),
       (is.takeWhile (fun i => decide (i.createdAt < d))).foldl (fun t i => bump t i.state) t) := by
  induction is generalizing t with
  | nil => rfl
  | cons i is ih =>
    by_cases h : i.createdAt < d
    · simp [stepIssues, h, List.dropWhile_cons, List.takeWhile_cons, ih]
    · simp [stepIssues, h, List.dropWhile_cons, List.takeWhile_cons]

theorem bump_tallyOfList (l : List Issue) (i : Issue) :
    bump (tallyOfList l) i.state = tallyOfList (l ++ [i]) := by
  by_cases h : i.state = "OPEN" <;>
    simp [bump, tallyOfList, h, List.countP_append, List.countP_cons, isOpen]

theorem foldl_bump (l : List Issue) :
    ∀ d0 : List Issue,
      l.foldl (fun t i => bump t i.state) (tallyOfList d0) = tallyOfList (d0 ++ l) := by
  induction l with
  | nil => simp
  | cons i l ih =>
    intro d0
    rw [List.foldl_cons, bump_tallyOfList d0 i, ih (d0 ++ [i])]
    simp

theorem takeWhile_eq_filter_of_sorted (d : Int) (is : List Issue)
    (hs : is.Pairwise (fun a b => a.createdAt ≤ b.createdAt)) :
    is.takeWhile (fun i => decide (i.createdAt < d))
      = is.filter (fun i => decide (i.createdAt < d)) := by
  induction is with
  | nil => rfl
  | cons i is ih =>
    rw [List.pairwise_cons] at hs
    obtain ⟨hall, htail⟩ := hs
    by_cases hd : i.createdAt < d
    · simp [List.takeWhile_cons, List.filter_cons, hd, ih htail]
    · have hfalse : ¬(decide (i.createdAt < d) = true) := by simpa using hd
      rw [List.takeWhile_cons, List.filter_cons, if_neg hfalse, if_neg hfalse]
      symm
      rw [List.filter_eq_nil_iff]
      intro a ha
      simp only [decide_eq_true_eq]
      intro hlt
      exact hd (lt_of_le_of_lt (hall a ha) hlt)

theorem alignGo_getObj_of_not_mem (k : String) (cs : List Commit) :
    ∀ (is : List Issue) (t : Tally) (res : List (String × Tally)),
      k ∉ cs.map (fun c => c.commit_id) →
      getObj (alignGo is cs t res) k = getObj res k := by
  induction cs with
  | nil => intro is t res _; rfl
  | cons c cs ih =>
    intro is t res h
    simp only [List.map_cons, List.mem_cons] at h
    push_neg at h
    obtain ⟨hne, hnot⟩ := h
    rw [alignGo, ih _ _ _ hnot, getObj_setObj_ne _ _ _ _ hne]

/-- The sweep invariant of `alignIssuesToCommits`: if the full issue list is
the consumed part followed by the remaining (sorted) part, the commits are
sorted with unique ids not yet bound in the result object, and every consumed
issue was created strictly before every remaining commit, then every commit
ends up bound to the tally of the issues created strictly before it. -/
theorem alignGo_spec (issues0 : List Issue) (cs : List Commit) :
    ∀ (done rest : List Issue) (res : List (String × Tally)),
      issues0 = done ++ rest →
      rest.Pairwise (fun a b => a.createdAt ≤ b.createdAt) →
      cs.Pairwise (fun a b => a.commit_date ≤ b.commit_date) →
      (cs.map (fun c => c.commit_id)).Nodup →
      (∀ e ∈ done, ∀ c ∈ cs, e.createdAt < c.commit_date) →
      (∀ c ∈ cs, getObj res c.commit_id = none) →
      ∀ x ∈ cs, getObj (alignGo rest cs (tallyOfList done) res) x.commit_id
        = some (tallyAt issues0 x.commit_date) := by
  induction cs with
  | nil =>
    intro done rest res _ _ _ _ _ _ x hx
    exact absurd hx (List.not_mem_nil x)
  | cons c cs ih =>
    intro done rest res hsplit hrest hcs hnodup hdone hres x hx
    rw [List.pairwise_cons] at hcs
    obtain ⟨hcle, hcs'⟩ := hcs
    simp only [List.map_cons, List.nodup_cons] at hnodup
    obtain ⟨hcid_not, hnodup'⟩ := hnodup
    have hstep := stepIssues_eq c.commit_date rest (tallyOfList done)
    have htake := takeWhile_eq_filter_of_sorted c.commit_date rest hrest
    have ht2 : (stepIssues c.commit_date rest (tallyOfList done)).2
        = tallyOfList (done ++ rest.takeWhile (fun i => decide (i.createdAt < c.commit_date))) := by
      rw [hstep]
      exact foldl_bump _ done
    have ht1 : (stepIssues c.commit_date rest (tallyOfList done)).1
        = rest.dropWhile (fun i => decide (i.createdAt < c.commit_date)) := by
      rw [hstep]
    have hdonec : ∀ e ∈ done, e.createdAt < c.commit_date :=
      fun e he => hdone e he c (List.mem_cons_self _ _)
    have hfil_done : done.filter (fun i => decide (i.createdAt < c.commit_date)) = done := by
      rw [List.filter_eq_self]
      intro a ha
      simp only [decide_eq_true_eq]
      exact hdonec a ha
    have htally :
        tallyOfList (done ++ rest.takeWhile (fun i => decide (i.createdAt < c.commit_date)))
          = tallyAt issues0 c.commit_date := by
      rw [htake, tallyAt, hsplit, List.filter_append, hfil_done]
    rcases List.mem_cons.mp hx with hxc | hxcs
    · subst hxc
      rw [alignGo, alignGo_getObj_of_not_mem _ cs _ _ _ hcid_not, ht2, htally,
        getObj_setObj_self]
    · have hsplit' : issues0
          = (done ++ rest.takeWhile (fun i => decide (i.createdAt < c.commit_date)))
            ++ rest.dropWhile (fun i => decide (i.createdAt < c.commit_date)) := by
        rw [List.append_assoc, List.takeWhile_append_dropWhile]
        exact hsplit
      have hrest' : (rest.dropWhile (fun i => decide (i.createdAt < c.commit_date))).Pairwise
          (fun a b => a.createdAt ≤ b.createdAt) :=
        List.Pairwise.sublist (List.dropWhile_sublist _) hrest
      have hdone' : ∀ e ∈ done ++ rest.takeWhile (fun i => decide (i.createdAt < c.commit_date)),
          ∀ c' ∈ cs, e.createdAt < c'.commit_date := by
        intro e he c' hc'
        rcases List.mem_append.mp he with h1 | h2
        · exact hdone e h1 c' (List.mem_cons_of_mem _ hc')
        · have hmem := htake ▸ h2
          have hpe := (List.mem_filter.mp hmem).2
          simp only [decide_eq_true_eq] at hpe
          exact lt_of_lt_of_le hpe (hcle c' hc')
      have hres' : ∀ c' ∈ cs,
          getObj (setObj res c.commit_id (stepIssues c.commit_date rest (tallyOfList done)).2)
            c'.commit_id = none := by
        intro c' hc'
        have hne : c'.commit_id ≠ c.commit_id := by
          intro hcontra
          exact hcid_not (hcontra ▸ List.mem_map_of_mem (fun x => x.commit_id) hc')
        rw [getObj_setObj_ne _ _ _ _ hne]
        exact hres c' (List.mem_cons_of_mem _ hc')
      rw [ht2] at hres'
      rw [alignGo, ht1, ht2]
      exact ih _ _ _ hsplit' hrest' hcs' hnodup' hdone' hres' x hxcs

/-- C5 counterexample: an issue created exactly at the commit timestamp is not
counted toward that commit — the cursor advances only past strictly earlier
issues (`commit_date > createdAt`), so the tally stored for the commit is
zero, not one. -/
theorem align_equal_timestamp_excluded :
    getObj (alignIssuesToCommits [Issue.mk 100 "OPEN"] [Commit.mk "c1" 100]) "c1"
      = some (Tally.mk 0 0 0) ∧
    some (Tally.mk 0 0 0) ≠ some (Tally.mk 1 1 0) :=
  ⟨rfl, by decide⟩

/-- C5 (amended): for sorted inputs with distinct commit ids, the tally bound
to each commit counts exactly the events created strictly before the commit
timestamp; an event whose creation timestamp equals a commit timestamp is not
counted for that commit and counts only toward commits with strictly greater
timestamps. -/
theorem align_counts_strictly_earlier (issues : List Issue) (commits : List Commit)
    (hiss : issues.Pairwise (fun a b => a.createdAt ≤ b.createdAt))
    (hcom : commits.Pairwise (fun a b => a.commit_date ≤ b.commit_date))
    (hids : (commits.map (fun c => c.commit_id)).Nodup) :
    ∀ c ∈ commits, getObj (alignIssuesToCommits issues commits) c.commit_id
      = some (tallyAt issues c.commit_date) := by
  intro c hc
  have h0 : tallyOfList [] = Tally.mk 0 0 0 := rfl
  have h := alignGo_spec issues commits [] issues [] (by simp) hiss hcom hids
    (by intro e he; exact absurd he (List.not_mem_nil e))
    (by intro c _; rfl) c hc
  rw [alignIssuesToCommits, ← h0]
  exact h

/-- Witness for `align_counts_strictly_earlier` at one OPEN issue and two
commits. -/
theorem align_counts_strictly_earlier_witness :
    ([Issue.mk 50 "OPEN", Issue.mk 150 "CLOSED"] : List Issue).Pairwise
        (fun a b => a.createdAt ≤ b.createdAt) ∧
    ([Commit.mk "c1" 100, Commit.mk "c2" 200] : List Commit).Pairwise
        (fun a b => a.commit_date ≤ b.commit_date) ∧
    (([Commit.mk "c1" 100, Commit.mk "c2" 200] : List Commit).map
        (fun c => c.commit_id)).Nodup ∧
    (∀ c ∈ [Commit.mk "c1" 100, Commit.mk "c2" 200],
      getObj (alignIssuesToCommits [Issue.mk 50 "OPEN", Issue.mk 150 "CLOSED"]
          [Commit.mk "c1" 100, Commit.mk "c2" 200]) c.commit_id
        = some (tallyAt [Issue.mk 50 "OPEN", Issue.mk 150 "CLOSED"] c.commit_date)) :=
  ⟨by decide, by decide, by decide,
   align_counts_strictly_earlier _ _ (by decide) (by decide) (by decide)⟩

theorem length_filter_mono {α : Type} (l : List α) (p q : α → Bool)
    (h : ∀ a ∈ l, p a = true → q a = true) :
    (l.filter p).length ≤ (l.filter q).length := by
  induction l with
  | nil => simp
  | cons a l ih =>
    have ih' := ih (fun x hx => h x (List.mem_cons_of_mem _ hx))
    by_cases hq : q a = true
    · by_cases hp : p a = true <;> simp [List.filter_cons, hp, hq] <;> omega
    · have hp : ¬p a = true := fun hp => hq (h a (List.mem_cons_self _ _) hp)
      simp [List.filter_cons, hp, hq, ih']

/-- C9: for events sorted by creation time and commits sorted chronologically
(with distinct commit ids, as commit hashes are), the per-commit total count
produced by `alignIssuesToCommits` is non-decreasing as the commit timestamp
increases. -/
theorem align_totalIssues_monotone (issues : List Issue) (commits : List Commit)
    (hiss : issues.Pairwise (fun a b => a.createdAt ≤ b.createdAt))
    (hcom : commits.Pairwise (fun a b => a.commit_date ≤ b.commit_date))
    (hids : (commits.map (fun c => c.commit_id)).Nodup)
    (ci cj : Commit) (hci : ci ∈ commits) (hcj : cj ∈ commits)
    (hdate : ci.commit_date ≤ cj.commit_date) (ti tj : Tally)
    (hti : getObj (alignIssuesToCommits issues commits) ci.commit_id = some ti)
    (htj : getObj (alignIssuesToCommits issues commits) cj.commit_id = some tj) :
    ti.totalIssues ≤ tj.totalIssues := by
  have h0 : tallyOfList [] = Tally.mk 0 0 0 := rfl
  have hbase := alignGo_spec issues commits [] issues [] (by simp) hiss hcom hids
    (by intro e he; exact absurd he (List.not_mem_nil e))
    (by intro c _; rfl)
  have hi := hbase ci hci
  have hj := hbase cj hcj
  rw [alignIssuesToCommits, ← h0, hi] at hti
  rw [alignIssuesToCommits, ← h0, hj] at htj
  have hti' : ti = tallyAt issues ci.commit_date := (Option.some.injEq _ _ ▸ hti).symm
  have htj' : tj = tallyAt issues cj.commit_date := (Option.some.injEq _ _ ▸ htj).symm
  subst hti'
  subst htj'
  refine length_filter_mono issues _ _ ?_
  intro a _ ha
  simp only [decide_eq_true_eq] at ha ⊢
  exact lt_of_lt_of_le ha hdate

/-- Witness for `align_totalIssues_monotone` at two issues and two commits. -/
theorem align_totalIssues_monotone_witness :
    ([Issue.mk 50 "OPEN", Issue.mk 150 "CLOSED"] : List Issue).Pairwise
        (fun a b => a.createdAt ≤ b.createdAt) ∧
    ([Commit.mk "c1" 100, Commit.mk "c2" 200] : List Commit).Pairwise
        (fun a b => a.commit_date ≤ b.commit_date) ∧
    (([Commit.mk "c1" 100, Commit.mk "c2" 200] : List Commit).map
        (fun c => c.commit_id)).Nodup ∧
    (Commit.mk "c1" 100) ∈ [Commit.mk "c1" 100, Commit.mk "c2" 200] ∧
    (Commit.mk "c2" 200) ∈ [Commit.mk "c1" 100, Commit.mk "c2" 200] ∧
    (Commit.mk "c1" 100).commit_date ≤ (Commit.mk "c2" 200).commit_date ∧
    getObj (alignIssuesToCommits [Issue.mk 50 "OPEN", Issue.mk 150 "CLOSED"]
        [Commit.mk "c1" 100, Commit.mk "c2" 200]) "c1" = some (Tally.mk 1 1 0) ∧
    getObj (alignIssuesToCommits [Issue.mk 50 "OPEN", Issue.mk 150 "CLOSED"]
        [Commit.mk "c1" 100, Commit.mk "c2" 200]) "c2" = some (Tally.mk 2 1 1) ∧
    (Tally.mk 1 1 0).totalIssues ≤ (Tally.mk 2 1 1).totalIssues :=
  ⟨by decide, by decide, by decide, by decide, by decide, by decide, rfl, rfl,
   align_totalIssues_monotone [Issue.mk 50 "OPEN", Issue.mk 150 "CLOSED"]
     [Commit.mk "c1" 100, Commit.mk "c2" 200] (by decide) (by decide) (by decide)
     (Commit.mk "c1" 100) (Commit.mk "c2" 200) (by decide) (by decide) (by decide)
     (Tally.mk 1 1 0) (Tally.mk 2 1 1) rfl rfl⟩

/-! ## Static analysis dispatch: `Clone.staticAnalysis` and `analyse.javascript` -/

/-- The aggregate output of `escomplex.analyse` used by the javascript
analyser: complexity metrics (opaque numeric payload here, the exact floating
point formulas are outside this embedding) and line totals summed over the
per-file reports. -/
structure EscomplexReport where
  cyclomatic : Int
  maintainability : Int
  effort : Int
  changeCost : Int
  slocPhysical : Nat
  slocLogical : Nat
  deriving DecidableEq, Repr

/-- The report of `analyse.generic`: number of files and total number of
physical lines. -/
structure GenericReport where
  numberOfFiles : Nat
  numberOfLines : Nat
  deriving DecidableEq, Repr

/-- `analyse.generic paths`: count the files and sum the line counts of their
contents; the file reads are modelled by the total environment function
`lineCount`. -/
def generic (lineCount : String → Nat) (paths : List String) : GenericReport :=
  { numberOfFiles := paths.length
    numberOfLines := (paths.map lineCount).foldl (fun a b => a + b) 0 }

/-- The result of analysing one extension group: the full escomplex-based
javascript report, or the reduced generic report substituted on failure (and
used for extensions without a dedicated analyser). -/
inductive ExtReport where
  | full (rep : EscomplexReport) (numberOfFiles : Nat) (numberOfComments : Nat)
  | reduced (g : GenericReport)
  deriving DecidableEq, Repr

/-- The file count carried by a report of either shape. -/
def ExtReport.filesOf : ExtReport → Nat
  | .full _ n _ => n
  | .reduced g => g.numberOfFiles

/-- The physical line count carried by a report of either shape. -/
def ExtReport.linesOf : ExtReport → Nat
  | .full rep _ _ => rep.slocPhysical
  | .reduced g => g.numberOfLines

/-- The external capabilities used by the static analysis: the escomplex
parser (which may reject on malformed source), the python analyser
subprocess, and the file reads (line and comment counting). -/
structure AnalyseEnv where
  escomplexOf : List String → Except String EscomplexReport
  pythonOf : List String → ExtReport
  lineCount : String → Nat
  commentsOf : List String → Nat

/-- `analyse.javascript paths`: when `escomplex.analyse` throws (a parse
failure on malformed source) the exception is caught and the promise resolves
with the generic report — the code that keeps running after that resolve
cannot reject the already-settled promise; otherwise the full report is
assembled from the escomplex output and the comment count. -/
def javascript (env : AnalyseEnv) (paths : List String) : ExtReport :=
  match env.escomplexOf paths with
  | .error _ => .reduced (generic env.lineCount paths)
  | .ok rep => .full rep paths.length (env.commentsOf paths)

/-- The switch on file extension inside `Clone.staticAnalysis`. -/
def analyseExtension (env : AnalyseEnv) (ext : String) (files : List String) : ExtReport :=
  if ext = ".js" then javascript env files
  else if ext = ".py" then env.pythonOf files
  else .reduced (generic env.lineCount files)

/-- `Clone.staticAnalysis`: analyse each extension group independently and
collect one report per group; no rejection of a group's analyser escapes to
the commit level. -/
def staticAnalysis (env : AnalyseEnv) (fileByExt : List (String × List String)) :
    List (String × ExtReport) :=
  fileByExt.map (fun p => (p.1, analyseExtension env p.1 p.2))

/-- C6: when the escomplex parse of a javascript group rejects, the failure is
caught inside that extension group and the reduced generic report — carrying
the file count and the total line count — is substituted for that extension;
the commit-level static analysis still produces one report per extension group
and no failure surfaces to the caller. -/
theorem staticAnalysis_parse_failure_fallback (env : AnalyseEnv)
    (fileByExt : List (String × List String)) (paths : List String) (msg : String)
    (hmem : (".js", paths) ∈ fileByExt)
    (herr : env.escomplexOf paths = .error msg) :
    (".js", ExtReport.reduced (generic env.lineCount paths)) ∈ staticAnalysis env fileByExt ∧
    (ExtReport.reduced (generic env.lineCount paths)).filesOf = paths.length ∧
    (ExtReport.reduced (generic env.lineCount paths)).linesOf
      = (paths.map env.lineCount).foldl (fun a b => a + b) 0 ∧
    (staticAnalysis env fileByExt).length = fileByExt.length := by
  refine ⟨?_, rfl, rfl, by simp [staticAnalysis]⟩
  have hjs : analyseExtension env ".js" paths
      = ExtReport.reduced (generic env.lineCount paths) := by
    simp [analyseExtension, javascript, herr]
  refine List.mem_map.mpr ⟨(".js", paths), hmem, ?_⟩
  simp [hjs]

/-- An analysis environment whose escomplex parser always rejects. -/
def envParseFailure : AnalyseEnv :=
  { escomplexOf := fun _ => Except.error "parse error"
    pythonOf := fun fs => ExtReport.reduced (GenericReport.mk fs.length 0)
    lineCount := fun _ => 3
    commentsOf := fun _ => 0 }

/-- Witness for `staticAnalysis_parse_failure_fallback` at a one-group tree of
two javascript files of three lines each. -/
theorem staticAnalysis_parse_failure_fallback_witness :
    ((".js", ["a.js", "b.js"]) ∈ [(".js", ["a.js", "b.js"])]) ∧
    envParseFailure.escomplexOf ["a.js", "b.js"] = .error "parse error" ∧
    ((".js", ExtReport.reduced (generic envParseFailure.lineCount ["a.js", "b.js"]))
        ∈ staticAnalysis envParseFailure [(".js", ["a.js", "b.js"])] ∧
      (ExtReport.reduced (generic envParseFailure.lineCount ["a.js", "b.js"])).filesOf
        = (["a.js", "b.js"] : List String).length ∧
      (ExtReport.reduced (generic envParseFailure.lineCount ["a.js", "b.js"])).linesOf
        = ((["a.js", "b.js"] : List String).map envParseFailure.lineCount).foldl
            (fun a b => a + b) 0 ∧
      (staticAnalysis envParseFailure [(".js", ["a.js", "b.js"])]).length
        = ([(".js", ["a.js", "b.js"])] : List (String × List String)).length) :=
  ⟨by simp, rfl,
   staticAnalysis_parse_failure_fallback envParseFailure _ _ "parse error" (by simp) rfl⟩

/-! ## Row insertion: `Database.insertValues` and the `MetricValues` table -/

/-- A flat metric row as assembled by `Data.analyse` (the `MetricValues`
column shape, with the metric still named by its string type). -/
structure MetricRow where
  repo_id : Nat
  commit_id : String
  commit_date : Int
  file_extension : String
  metric_type : String
  metric_value : Int
  deriving DecidableEq, Repr

/-- A stored row of the `MetricValues` table, with the metric type resolved to
its `MetricTypes` id. -/
structure DbRow where
  repo_id : Nat
  commit_id : String
  commit_date : Int
  file_extension : String
  metric_type_id : Nat
  metric_value : Int
  deriving DecidableEq, Repr

/-- The UNIQUE constraint key of `MetricValues`:
(repo_id, commit_id, file_extension, metric_type_id). -/
def DbRow.key (r : DbRow) : Nat × String × String × Nat :=
  (r.repo_id, r.commit_id, r.file_extension, r.metric_type_id)

/-- One `INSERT OR IGNORE` statement run: the row is appended unless a stored
row already has the same unique key, in which case nothing changes. -/
def insertOrIgnore (store : List DbRow) (r : DbRow) : List DbRow :=
  if store.any (fun s => decide (s.key = r.key)) then store else store ++ [r]

/-- The stored row corresponding to a metric row and its resolved type id. -/
def dbRowOf (row : MetricRow) (tid : Nat) : DbRow :=
  { repo_id := row.repo_id, commit_id := row.commit_id, commit_date := row.commit_date,
    file_extension := row.file_extension, metric_type_id := tid,
    metric_value := row.metric_value }

/-- The loop body of `Database.insertValues`: resolve the metric name through
`MetricTypes` (`byName`) and run the `INSERT OR IGNORE` statement; rows with
unregistered metric names are skipped. -/
def insertValuesStep (byName : List (String × Nat)) (st : List DbRow)
    (row : MetricRow) : List DbRow :=
  match getObj byName row.metric_type with
  | some tid => insertOrIgnore st (dbRowOf row tid)
  | none => st

/-- `Database.insertValues`: run the prepared `INSERT OR IGNORE` statement for
each row in order. -/
def insertValues (byName : List (String × Nat)) (store : List DbRow)
    (rows : List MetricRow) : List DbRow :=
  rows.foldl (insertValuesStep byName) store

theorem insertOrIgnore_any {p : DbRow → Bool} (store : List DbRow) (r : DbRow)
    (h : store.any p = true) : (insertOrIgnore store r).any p = true := by
  unfold insertOrIgnore
  by_cases hc : store.any (fun s => decide (s.key = r.key)) = true
  · rw [if_pos hc]
    exact h
  · rw [if_neg hc]
    simp only [List.any_append, h, Bool.true_or]

theorem insertValuesStep_any {p : DbRow → Bool} (byName : List (String × Nat))
    (store : List DbRow) (row : MetricRow) (h : store.any p = true) :
    (insertValuesStep byName store row).any p = true := by
  unfold insertValuesStep
  cases getObj byName row.metric_type with
  | none => exact h
  | some tid => exact insertOrIgnore_any store _ h

theorem insertValues_any_mono {p : DbRow → Bool} (byName : List (String × Nat))
    (rows : List MetricRow) :
    ∀ store : List DbRow, store.any p = true → (insertValues byName store rows).any p = true := by
  induction rows with
  | nil => intro store h; exact h
  | cons row rows ih =>
    intro store h
    simp only [insertValues, List.foldl_cons]
    exact ih _ (insertValuesStep_any byName store row h)

theorem insertValues_covers (byName : List (String × Nat)) (rows : List MetricRow) :
    ∀ (store : List DbRow) (row : MetricRow) (tid : Nat), row ∈ rows →
      getObj byName row.metric_type = some tid →
      (insertValues byName store rows).any
        (fun s => decide (s.key = (dbRowOf row tid).key)) = true := by
  induction rows with
  | nil =>
    intro _ _ _ h _
    exact absurd h (List.not_mem_nil _)
  | cons r rows ih =>
    intro store row tid hmem hg
    rcases List.mem_cons.mp hmem with hr | hr
    · subst hr
      simp only [insertValues, List.foldl_cons]
      refine insertValues_any_mono byName rows _ ?_
      have hstep : insertValuesStep byName store row = insertOrIgnore store (dbRowOf row tid) := by
        simp [insertValuesStep, hg]
      rw [hstep]
      unfold insertOrIgnore
      by_cases hc : store.any (fun s => decide (s.key = (dbRowOf row tid).key)) = true
      · rw [if_pos hc]
        exact hc
      · rw [if_neg hc]
        simp
    · simp only [insertValues, List.foldl_cons]
      exact ih _ row tid hr hg

theorem insertValues_noop (byName : List (String × Nat)) (rows : List MetricRow) :
    ∀ store : List DbRow,
      (∀ row ∈ rows, ∀ tid : Nat, getObj byName row.metric_type = some tid →
        store.any (fun s => decide (s.key = (dbRowOf row tid).key)) = true) →
      insertValues byName store rows = store := by
  induction rows with
  | nil => intro store _; rfl
  | cons r rows ih =>
    intro store h
    simp only [insertValues, List.foldl_cons]
    have hstep : insertValuesStep byName store r = store := by
      unfold insertValuesStep
      cases hg : getObj byName r.metric_type with
      | none => rfl
      | some tid =>
        have hk := h r (List.mem_cons_self _ _) tid hg
        show insertOrIgnore store (dbRowOf r tid) = store
        unfold insertOrIgnore
        rw [if_pos hk]
    rw [hstep]
    exact ih store (fun row hrow tid htid => h row (List.mem_cons_of_mem _ hrow) tid htid)

/-- C8: `INSERT OR IGNORE` against the (repo, commit, extension, metric type)
UNIQUE key makes re-insertion of already-stored rows a no-op — running
`insertValues` a second time with the same rows leaves the store exactly as
the first run left it, inserting zero new rows and raising no error. -/
theorem insertValues_reinsert_noop (byName : List (String × Nat)) (store : List DbRow)
    (rows : List MetricRow) :
    insertValues byName (insertValues byName store rows) rows
      = insertValues byName store rows := by
  refine insertValues_noop byName rows _ ?_
  intro row hrow tid htid
  exact insertValues_covers byName rows store row tid hrow htid

/-! ## Row assembly: the merge inside `Data.analyse` -/

/-- JavaScript object spread `{...o1, ...o2}`: every property of the second
object assigned in order onto a copy of the first, so its values win on
shared keys and its new keys are appended. -/
def mergeObj {V : Type} (o1 o2 : List (String × V)) : List (String × V) :=
  o2.foldl (fun acc p => setObj acc p.1 p.2) o1

theorem getObj_mergeObj_of_not_mem {V : Type} (o2 : List (String × V)) :
    ∀ (o1 : List (String × V)) (k : String), k ∉ o2.map Prod.fst →
      getObj (mergeObj o1 o2) k = getObj o1 k := by
  induction o2 with
  | nil => intro o1 k _; rfl
  | cons q qs ih =>
    intro o1 k hk
    simp only [List.map_cons, List.mem_cons] at hk
    push_neg at hk
    obtain ⟨hne, hnot⟩ := hk
    show getObj (mergeObj (setObj o1 q.1 q.2) qs) k = getObj o1 k
    rw [ih _ k hnot, getObj_setObj_ne _ _ _ _ hne]

theorem getObj_mergeObj_of_mem {V : Type} (o2 : List (String × V)) :
    ∀ (o1 : List (String × V)) (k : String) (v : V), (o2.map Prod.fst).Nodup →
      (k, v) ∈ o2 → getObj (mergeObj o1 o2) k = some v := by
  induction o2 with
  | nil =>
    intro _ _ _ _ h
    exact absurd h (List.not_mem_nil _)
  | cons q qs ih =>
    intro o1 k v hnodup hm
    simp only [List.map_cons, List.nodup_cons] at hnodup
    obtain ⟨hq_not, hnodup'⟩ := hnodup
    rcases List.mem_cons.mp hm with hqv | hqs
    · subst hqv
      show getObj (mergeObj (setObj o1 k v) qs) k = some v
      rw [getObj_mergeObj_of_not_mem qs _ k hq_not, getObj_setObj_self]
    · show getObj (mergeObj (setObj o1 q.1 q.2) qs) k = some v
      exact ih _ k v hnodup' hqs

theorem keys_setObj_eq {V : Type} (o : List (String × V)) (k : String) (v : V) :
    (setObj o k v).map Prod.fst
      = if k ∈ o.map Prod.fst then o.map Prod.fst else o.map Prod.fst ++ [k] := by
  induction o with
  | nil => simp [setObj]
  | cons p ps ih =>
    by_cases hp : p.1 = k
    · simp [setObj, hp]
    · by_cases hk : k ∈ ps.map Prod.fst <;>
        simp [setObj, hp, ih, hk, Ne.symm hp]

theorem nodup_keys_setObj {V : Type} (o : List (String × V)) (k : String) (v : V)
    (h : (o.map Prod.fst).Nodup) : ((setObj o k v).map Prod.fst).Nodup := by
  rw [keys_setObj_eq]
  by_cases hk : k ∈ o.map Prod.fst
  · rw [if_pos hk]
    exact h
  · rw [if_neg hk]
    simp only [List.nodup_append, h, List.nodup_cons, List.not_mem_nil, not_false_iff,
      List.nodup_nil, and_true, true_and]
    intro a ha hmem
    simp only [List.mem_singleton] at hmem
    exact hk (hmem ▸ ha)

theorem nodup_keys_mergeObj {V : Type} (o2 : List (String × V)) :
    ∀ o1 : List (String × V), (o1.map Prod.fst).Nodup →
      ((mergeObj o1 o2).map Prod.fst).Nodup := by
  induction o2 with
  | nil => intro o1 h; exact h
  | cons q qs ih =>
    intro o1 h
    exact ih _ (nodup_keys_setObj o1 q.1 q.2 h)

/-- The row assembly inside `Data.analyse`: for each per-commit static result,
for each extension, merge the extension-scoped static metrics with the
commit-scoped meta metrics — `{...staticValues, ...meta[commit_id]}` — and
expand the merged object into one flat row per metric, tagged with the repo
id, the commit id and date, and the file extension. -/
def newAnalysesRows (static_ : List AnalysisResult) (meta : String → List (String × Int))
    (repo_id : Nat) : List MetricRow :=
  static_.flatMap (fun e =>
    e.valuesByExt.flatMap (fun p =>
      (mergeObj p.2 (meta e.commit_id)).map (fun m =>
        { repo_id := repo_id, commit_id := e.commit_id, commit_date := e.commit_date,
          file_extension := p.1, metric_type := m.1, metric_value := m.2 })))

/-- C7: under the well-formedness of JavaScript objects (distinct commit ids
across walker results, distinct extension keys per result, distinct metric
keys per object), the assembler produces at most one row per
(commit, extension, metric) triple — the projection to those key triples has
no duplicates — and the commit-scoped meta metrics are replicated onto every
extension group: for every extension of a commit and every meta metric of
that commit, the corresponding row is produced. -/
theorem newAnalysesRows_unique_and_replicated (static_ : List AnalysisResult)
    (meta : String → List (String × Int)) (repo : Nat)
    (hcid : (static_.map AnalysisResult.commit_id).Nodup)
    (hext : ∀ e ∈ static_, (e.valuesByExt.map Prod.fst).Nodup)
    (hsv : ∀ e ∈ static_, ∀ p ∈ e.valuesByExt, (p.2.map Prod.fst).Nodup)
    (hmeta : ∀ cid : String, ((meta cid).map Prod.fst).Nodup) :
    ((newAnalysesRows static_ meta repo).map
        (fun r => (r.commit_id, r.file_extension, r.metric_type))).Nodup ∧
    (∀ e ∈ static_, ∀ p ∈ e.valuesByExt, ∀ m ∈ meta e.commit_id,
      ({ repo_id := repo, commit_id := e.commit_id, commit_date := e.commit_date,
         file_extension := p.1, metric_type := m.1, metric_value := m.2 } : MetricRow)
        ∈ newAnalysesRows static_ meta repo) := by
  constructor
  · have hkeyrw : (newAnalysesRows static_ meta repo).map
        (fun r => (r.commit_id, r.file_extension, r.metric_type))
        = static_.flatMap (fun e => e.valuesByExt.flatMap (fun p =>
            (mergeObj p.2 (meta e.commit_id)).map (fun m => (e.commit_id, p.1, m.1)))) := by
      simp only [newAnalysesRows, List.map_flatMap, List.map_map]
      rfl
    rw [hkeyrw]
    rw [List.nodup_flatMap]
    constructor
    · intro e he
      rw [List.nodup_flatMap]
      constructor
      · intro p hp
        have hkeys : ((mergeObj p.2 (meta e.commit_id)).map Prod.fst).Nodup :=
          nodup_keys_mergeObj (meta e.commit_id) p.2 (hsv e he p hp)
        rw [List.Nodup, List.pairwise_map] at hkeys ⊢
        refine hkeys.imp ?_
        intro a b hab hcontra
        simp only [Prod.mk.injEq] at hcontra
        exact hab hcontra.2.2
      · have hextp : e.valuesByExt.Pairwise (fun a b => a.1 ≠ b.1) := by
          have := hext e he
          rwa [List.Nodup, List.pairwise_map] at this
        refine hextp.imp ?_
        intro a b hab
        intro x hxa hxb
        rw [List.mem_map] at hxa hxb
        obtain ⟨ma, _, hma⟩ := hxa
        obtain ⟨mb, _, hmb⟩ := hxb
        apply hab
        have : (e.commit_id, a.1, ma.1) = (e.commit_id, b.1, mb.1) := by rw [hma, hmb]
        simp only [Prod.mk.injEq] at this
        exact this.2.1
    · have hcidp : static_.Pairwise (fun a b => a.commit_id ≠ b.commit_id) := by
        rwa [List.Nodup, List.pairwise_map] at hcid
      refine hcidp.imp ?_
      intro e1 e2 hne
      intro x hx1 hx2
      rw [List.mem_flatMap] at hx1 hx2
      obtain ⟨p1, _, hm1⟩ := hx1
      obtain ⟨p2, _, hm2⟩ := hx2
      rw [List.mem_map] at hm1 hm2
      obtain ⟨ma, _, hma⟩ := hm1
      obtain ⟨mb, _, hmb⟩ := hm2
      apply hne
      have : (e1.commit_id, p1.1, ma.1) = (e2.commit_id, p2.1, mb.1) := by rw [hma, hmb]
      simp only [Prod.mk.injEq] at this
      exact this.1
  · intro e he p hp m hm
    have hget : getObj (mergeObj p.2 (meta e.commit_id)) m.1 = some m.2 := by
      obtain ⟨k, v⟩ := m
      exact getObj_mergeObj_of_mem (meta e.commit_id) p.2 k v (hmeta e.commit_id) hm
    have hmem : (m.1, m.2) ∈ mergeObj p.2 (meta e.commit_id) := mem_of_getObj _ _ _ hget
    rw [newAnalysesRows, List.mem_flatMap]
    refine ⟨e, he, ?_⟩
    rw [List.mem_flatMap]
    refine ⟨p, hp, ?_⟩
    rw [List.mem_map]
    exact ⟨(m.1, m.2), hmem, rfl⟩

/-- A constant commit-scoped meta analysis used by the assembler witness. -/
def metaConst : String → List (String × Int) := fun _ => [("totalIssues", 5)]

/-- A two-extension single-commit walker output used by the assembler
witness. -/
def staticSample : List AnalysisResult :=
  [AnalysisResult.mk "c1" 100
    [(".js", [("numberOfLines", 10)]), (".py", [("numberOfLines", 4)])]]

/-- Witness for `newAnalysesRows_unique_and_replicated`: one commit with two
extension groups and one commit-scoped meta metric replicated onto both. -/
theorem newAnalysesRows_unique_and_replicated_witness :
    ((staticSample.map AnalysisResult.commit_id).Nodup) ∧
    (∀ e ∈ staticSample, (e.valuesByExt.map Prod.fst).Nodup) ∧
    (∀ e ∈ staticSample, ∀ p ∈ e.valuesByExt, (p.2.map Prod.fst).Nodup) ∧
    (∀ cid : String, ((metaConst cid).map Prod.fst).Nodup) ∧
    (((newAnalysesRows staticSample metaConst 7).map
        (fun r => (r.commit_id, r.file_extension, r.metric_type))).Nodup ∧
      (∀ e ∈ staticSample, ∀ p ∈ e.valuesByExt, ∀ m ∈ metaConst e.commit_id,
        ({ repo_id := 7, commit_id := e.commit_id, commit_date := e.commit_date,
           file_extension := p.1, metric_type := m.1, metric_value := m.2 } : MetricRow)
          ∈ newAnalysesRows staticSample metaConst 7)) :=
  ⟨by decide, by decide, by decide, fun _ => by simp [metaConst],
   newAnalysesRows_unique_and_replicated staticSample metaConst 7 (by decide) (by decide)
     (by decide) (fun _ => by simp [metaConst])⟩

/-! ## Display pivot: `utils.rows2points` -/

/-- The pivoted display record: the constant columns of the first row seen for
the group key, plus one dynamically added property per metric name. -/
structure Point where
  repo_id : Nat
  commit_id : String
  commit_date : Int
  file_extension : String
  metrics : List (String × Int)
  deriving DecidableEq, Repr

/-- The grouping key of `rows2points`: the string
`commit_id + ":" + file_extension`; the repo id is not part of the key. -/
def pointKey (r : MetricRow) : String := r.commit_id ++ ":" ++ r.file_extension

/-- The base point built from a row (the `init` helper): the constant columns,
with the metric name and metric value columns stripped. -/
def initRow (r : MetricRow) : Point :=
  { repo_id := r.repo_id, commit_id := r.commit_id, commit_date := r.commit_date,
    file_extension := r.file_extension, metrics := [] }

/-- The existing point for the row's key, or the freshly initialised base
point (`points[id] = points[id] || init(row)`). -/
def basePointOf (points : List (String × Point)) (row : MetricRow) : Point :=
  match getObj points (pointKey row) with
  | some p => p
  | none => initRow row

/-- One loop step of `rows2points`: fetch or initialise the point for the
row's key, then assign the row's metric value under its metric name —
silently overwriting any earlier value stored for the same key and name. -/
def rows2pointsStep (points : List (String × Point)) (row : MetricRow) :
    List (String × Point) :=
  setObj points (pointKey row)
    { basePointOf points row with
      metrics := setObj (basePointOf points row).metrics row.metric_type row.metric_value }

/-- The point object built by `rows2points` before its values are listed. -/
def rows2pointsObj (rows : List MetricRow) : List (String × Point) :=
  rows.foldl rows2pointsStep []

/-- `utils.rows2points rows`: group the rows by `commit_id + ":" +
file_extension` and pivot each group into one point, returning
`Object.values` of the accumulated object. -/
def rows2points (rows : List MetricRow) : List Point :=
  (rows2pointsObj rows).map Prod.snd

theorem rows2pointsStep_getObj (points : List (String × Point)) (row : MetricRow) :
    ∃ p : Point, getObj (rows2pointsStep points row) (pointKey row) = some p ∧
      getObj p.metrics row.metric_type = some row.metric_value :=
  ⟨_, getObj_setObj_self _ _ _, getObj_setObj_self _ _ _⟩

theorem rows2pointsStep_preserve (points : List (String × Point)) (row : MetricRow)
    (k m : String) (v : Int) (p : Point)
    (hne : ¬(pointKey row = k ∧ row.metric_type = m))
    (hp : getObj points k = some p) (hv : getObj p.metrics m = some v) :
    ∃ q : Point, getObj (rows2pointsStep points row) k = some q ∧
      getObj q.metrics m = some v := by
  by_cases hk : pointKey row = k
  · have hm : row.metric_type ≠ m := fun hmm => hne ⟨hk, hmm⟩
    subst hk
    have hbase : basePointOf points row = p := by
      unfold basePointOf
      rw [hp]
    refine ⟨_, getObj_setObj_self _ _ _, ?_⟩
    rw [hbase]
    rw [getObj_setObj_ne _ _ _ _ (Ne.symm hm)]
    exact hv
  · refine ⟨p, ?_, hv⟩
    unfold rows2pointsStep
    rw [getObj_setObj_ne _ _ _ _ (Ne.symm hk)]
    exact hp

theorem rows2points_foldl_preserve (post : List MetricRow) :
    ∀ (points : List (String × Point)) (k m : String) (v : Int),
      (∀ q ∈ post, ¬(pointKey q = k ∧ q.metric_type = m)) →
      (∃ p : Point, getObj points k = some p ∧ getObj p.metrics m = some v) →
      ∃ p : Point, getObj (post.foldl rows2pointsStep points) k = some p ∧
        getObj p.metrics m = some v := by
  induction post with
  | nil => intro points k m v _ h; exact h
  | cons q post ih =>
    intro points k m v hq h
    obtain ⟨p, hp, hv⟩ := h
    simp only [List.foldl_cons]
    refine ih _ k m v (fun x hx => hq x (List.mem_cons_of_mem _ hx)) ?_
    exact rows2pointsStep_preserve points q k m v p (hq q (List.mem_cons_self _ _)) hp hv

/-- C10: `rows2points` groups rows by the key `commit_id + ":" +
file_extension` — the repo id is not part of the key, so rows agreeing on
commit id and extension share a key and collapse into a single point — and
when a later row carries the same key and the same metric name its value
silently overwrites the earlier one in the resulting point; with the
assembler's old-then-new concatenation a recomputed duplicate metric is
therefore displayed with the newly computed value. -/
theorem rows2points_last_write_wins (pre post : List MetricRow) (r : MetricRow)
    (hpost : ∀ q ∈ post, ¬(pointKey q = pointKey r ∧ q.metric_type = r.metric_type)) :
    (∃ p : Point, getObj (rows2pointsObj (pre ++ r :: post)) (pointKey r) = some p ∧
        getObj p.metrics r.metric_type = some r.metric_value) ∧
    (∀ q1 q2 : MetricRow, q1.commit_id = q2.commit_id →
      q1.file_extension = q2.file_extension → pointKey q1 = pointKey q2) ∧
    (∀ r1 r2 : MetricRow, pointKey r1 = pointKey r2 → (rows2points [r1, r2]).length = 1) := by
  refine ⟨?_, ?_, ?_⟩
  · rw [rows2pointsObj, List.foldl_append, List.foldl_cons]
    exact rows2points_foldl_preserve post _ _ _ _ hpost
      (rows2pointsStep_getObj (pre.foldl rows2pointsStep []) r)
  · intro q1 q2 h1 h2
    simp [pointKey, h1, h2]
  · intro r1 r2 hk
    simp only [rows2points, rows2pointsObj, List.foldl_cons, List.foldl_nil]
    have e1 : rows2pointsStep ([] : List (String × Point)) r1
        = [(pointKey r1, { basePointOf [] r1 with
            metrics := setObj (basePointOf [] r1).metrics r1.metric_type r1.metric_value })] :=
      rfl
    rw [e1]
    unfold rows2pointsStep setObj
    rw [← hk]
    simp

/-- The stored row of the pivot witness. -/
def oldRow : MetricRow :=
  { repo_id := 7, commit_id := "c1", commit_date := 100, file_extension := ".js",
    metric_type := "numberOfLines", metric_value := 10 }

/-- The recomputed row of the pivot witness: same commit, extension and
metric, different value. -/
def newRow : MetricRow :=
  { repo_id := 7, commit_id := "c1", commit_date := 100, file_extension := ".js",
    metric_type := "numberOfLines", metric_value := 12 }

/-- Witness for `rows2points_last_write_wins`: the old row followed by the
recomputed row yields the recomputed value. -/
theorem rows2points_last_write_wins_witness :
    (∀ q ∈ ([] : List MetricRow),
      ¬(pointKey q = pointKey newRow ∧ q.metric_type = newRow.metric_type)) ∧
    ((∃ p : Point, getObj (rows2pointsObj ([oldRow] ++ newRow :: [])) (pointKey newRow) = some p ∧
        getObj p.metrics newRow.metric_type = some newRow.metric_value) ∧
      (∀ q1 q2 : MetricRow, q1.commit_id = q2.commit_id →
        q1.file_extension = q2.file_extension → pointKey q1 = pointKey q2) ∧
      (∀ r1 r2 : MetricRow, pointKey r1 = pointKey r2 → (rows2points [r1, r2]).length = 1)) :=
  ⟨fun q hq => absurd hq (List.not_mem_nil q),
   rows2points_last_write_wins [oldRow] [] newRow
     (fun q hq => absurd hq (List.not_mem_nil q))⟩

end HubListener
